import Mathlib

/-!
Verification of the left-leaning red-black tree in `src/rbtree.rs` of
`rust-adivon`.

The Rust code is shallowly embedded: `NodeCell<K, V>` (an `Option<Box<Node>>`)
becomes the inductive type `RBNode K V` whose `nil` constructor is the absent
link, and every operation of the source file becomes a structurally recursive
Lean function.  The Rust bound `K: PartialOrd` together with the
`partial_cmp(..).unwrap()` calls requires a total order in practice, which we
render as `[LinearOrder K]`.  Assertions inside the balancing primitives are
modelled separately by `putChk`, an `Option`-valued variant of `put` that
returns `none` exactly when an assertion would fail.
-/

namespace Rbtree

/-- `Color` from rbtree.rs: the two-state color tag of a node. -/
inductive Color where
  | Red : Color
  | Black : Color
deriving DecidableEq, Repr

/-- `NodeCell<K, V> = Option<Box<Node<K, V>>>` from rbtree.rs: either the
absent link (`nil`) or a node carrying key, value, both subtrees and a color. -/
inductive RBNode (K V : Type) where
  | nil : RBNode K V
  | node (key : K) (val : V) (left : RBNode K V) (right : RBNode K V) (color : Color) : RBNode K V
deriving DecidableEq, Repr

namespace RBNode

variable {K V : Type}

/-- The left child of a link (`nil` for the absent link). -/
def left : RBNode K V → RBNode K V
  | nil => nil
  | node _ _ l _ _ => l

/-- The right child of a link (`nil` for the absent link). -/
def right : RBNode K V → RBNode K V
  | nil => nil
  | node _ _ _ r _ => r

/-- `is_red` from rbtree.rs: an absent link is not Red. -/
def isRed : RBNode K V → Bool
  | node _ _ _ _ Color.Red => true
  | _ => false

/-- `Node::size` from rbtree.rs, extended with `0` for the absent link as in
`RedBlackBST::size`. -/
def size : RBNode K V → Nat
  | nil => 0
  | node _ _ l r _ => 1 + l.size + r.size

/-- `Node::depth` from rbtree.rs, extended with `0` for the absent link as in
`RedBlackBST::depth`. -/
def depth : RBNode K V → Nat
  | nil => 0
  | node _ _ l r _ => max l.depth r.depth + 1

/-- Recolor the root of a link Black, as in `self.root.as_mut().unwrap().color
= Black` at the end of `RedBlackBST::put` (no-op on the absent link). -/
def setBlack : RBNode K V → RBNode K V
  | nil => nil
  | node k v l r _ => node k v l r Color.Black

/-- `Node::rotate_left` from rbtree.rs.  The Rust method asserts that the right
child is Red; this total function performs the rotation whenever the right
child exists and is the identity otherwise (the assertion itself is modelled
by `balanceChk` below). -/
def rotateLeft : RBNode K V → RBNode K V
  | node k v l (node rk rv rl rr _) c => node rk rv (node k v l rl Color.Red) rr c
  | t => t

/-- `Node::rotate_right` from rbtree.rs (mirror image of `rotateLeft`). -/
def rotateRight : RBNode K V → RBNode K V
  | node k v (node lk lv ll lr _) r c => node lk lv ll (node k v lr r Color.Red) c
  | t => t

/-- `Node::flip_color` from rbtree.rs: root becomes Red, both children Black. -/
def flipColor : RBNode K V → RBNode K V
  | nil => nil
  | node k v l r _ => node k v (setBlack l) (setBlack r) Color.Red

/-- First fix-up of `put` (rbtree.rs lines 162-164): rotate left when the
right child is Red and the left child is not. -/
def fix1 (x : RBNode K V) : RBNode K V :=
  if isRed x.right && !isRed x.left then rotateLeft x else x

/-- Second fix-up of `put` (rbtree.rs lines 165-167): rotate right when the
left child and the left-left grandchild are both Red. -/
def fix2 (x : RBNode K V) : RBNode K V :=
  if isRed x.left && isRed x.left.left then rotateRight x else x

/-- Third fix-up of `put` (rbtree.rs lines 168-170): color-flip when both
children are Red. -/
def fix3 (x : RBNode K V) : RBNode K V :=
  if isRed x.left && isRed x.right then flipColor x else x

/-- The bottom-up fix-up sequence at the end of the free function `put` in
rbtree.rs, lines 162-170, applied in this exact order. -/
def balanceFix (x : RBNode K V) : RBNode K V :=
  fix3 (fix2 (fix1 x))

/-- The free recursive function `put` from rbtree.rs: descend by comparison,
insert a Red node at an absent link or overwrite the value on an equal key,
then apply the fix-up sequence. -/
def putAux [LinearOrder K] : RBNode K V → K → V → RBNode K V
  | nil, key, val => node key val nil nil Color.Red
  | node k v l r c, key, val =>
    if key < k then balanceFix (node k v (putAux l key val) r c)
    else if k < key then balanceFix (node k v l (putAux r key val) c)
    else balanceFix (node k val l r c)

/-- `RedBlackBST::put` from rbtree.rs: run the recursive `put` on the root and
force the root color Black. -/
def put [LinearOrder K] (t : RBNode K V) (key : K) (val : V) : RBNode K V :=
  setBlack (putAux t key val)

/-- `RedBlackBST::get` from rbtree.rs (the iterative descent, rendered
recursively). -/
def get [LinearOrder K] : RBNode K V → K → Option V
  | nil, _ => none
  | node k v l r _, key =>
    if key < k then get l key
    else if k < key then get r key
    else some v

/-- The `delete_min` helper from rbtree.rs: returns the subtree with its
minimum removed, paired with the detached minimum node (whose links are
taken, so it carries `nil` children). -/
def deleteMinAux : RBNode K V → RBNode K V × RBNode K V
  | nil => (nil, nil)
  | node k v nil r c => (r, node k v nil nil c)
  | node k v (node lk lv ll lr lc) r c =>
    let p := deleteMinAux (node lk lv ll lr lc)
    (node k v p.1 r c, p.2)

/-- The `delete_max` helper from rbtree.rs (mirror image of `deleteMinAux`). -/
def deleteMaxAux : RBNode K V → RBNode K V × RBNode K V
  | nil => (nil, nil)
  | node k v l nil c => (l, node k v nil nil c)
  | node k v l (node rk rv rl rr rc) c =>
    let p := deleteMaxAux (node rk rv rl rr rc)
    (node k v l p.1 c, p.2)

/-- The free recursive function `delete` from rbtree.rs: structural BST
deletion, replacing a two-child node by the minimum of its right subtree
(keeping that minimum's color), with no red-black fix-ups. -/
def deleteAux [LinearOrder K] : RBNode K V → K → RBNode K V
  | nil, _ => nil
  | node k v l r c, key =>
    if key < k then node k v (deleteAux l key) r c
    else if k < key then node k v l (deleteAux r key) c
    else
      match r with
      | nil => l
      | node rk rv rl rr rc =>
        match l with
        | nil => node rk rv rl rr rc
        | node lk lv ll lr lc =>
          let p := deleteMinAux (node rk rv rl rr rc)
          match p.2 with
          | nil => nil
          | node mk mv _ _ mc => node mk mv (node lk lv ll lr lc) p.1 mc

/-- `RedBlackBST::delete` from rbtree.rs. -/
def delete [LinearOrder K] (t : RBNode K V) (key : K) : RBNode K V :=
  deleteAux t key

/-- `RedBlackBST::delete_min` from rbtree.rs. -/
def deleteMin (t : RBNode K V) : RBNode K V :=
  (deleteMinAux t).1

/-- `RedBlackBST::delete_max` from rbtree.rs. -/
def deleteMax (t : RBNode K V) : RBNode K V :=
  (deleteMaxAux t).1

/-- `find_min` from rbtree.rs, projected to the key as in
`RedBlackBST::min`. -/
def findMin : RBNode K V → Option K
  | nil => none
  | node k _ nil _ _ => some k
  | node _ _ (node lk lv ll lr lc) _ _ => findMin (node lk lv ll lr lc)

/-- `find_max` from rbtree.rs, projected to the key as in
`RedBlackBST::max`. -/
def findMax : RBNode K V → Option K
  | nil => none
  | node k _ _ nil _ => some k
  | node _ _ _ (node rk rv rl rr rc) _ => findMax (node rk rv rl rr rc)

/-- The free function `floor` from rbtree.rs, projected to the key as in
`RedBlackBST::floor`. -/
def floor [LinearOrder K] : RBNode K V → K → Option K
  | nil, _ => none
  | node k _ l r _, key =>
    if key < k then floor l key
    else if k < key then
      match floor r key with
      | some t => some t
      | none => some k
    else some k

/-- The free function `ceiling` from rbtree.rs, projected to the key as in
`RedBlackBST::ceiling`. -/
def ceiling [LinearOrder K] : RBNode K V → K → Option K
  | nil, _ => none
  | node k _ l r _, key =>
    if k < key then ceiling r key
    else if key < k then
      match ceiling l key with
      | some t => some t
      | none => some k
    else some k

/-- `rank_helper` inside `RedBlackBST::rank` from rbtree.rs: the number of
keys strictly less than `key`. -/
def rank [LinearOrder K] : RBNode K V → K → Nat
  | nil, _ => 0
  | node k _ l r _, key =>
    if key < k then rank l key
    else if k < key then 1 + l.size + rank r key
    else l.size

/-- `RedBlackBST::keys` from rbtree.rs: the in-order key sequence. -/
def keys : RBNode K V → List K
  | nil => []
  | node k _ l r _ => keys l ++ k :: keys r

/-- The in-order key/value sequence (same traversal as `keys`, keeping the
values; used as the abstract model of the table). -/
def pairs : RBNode K V → List (K × V)
  | nil => []
  | node k v l r _ => pairs l ++ (k, v) :: pairs r

/-- `RedBlackBST::select` from rbtree.rs: scan the in-order key sequence for
the first key whose rank is `k`. -/
def select [LinearOrder K] (t : RBNode K V) (k : Nat) : Option K :=
  (keys t).find? (fun key => rank t key == k)

/-- The fix-up sequence with the Rust assertions made explicit: `rotate_left`
asserts `is_red(self.right)` and `rotate_right` asserts `is_red(self.left)`,
both of which are implied by their call-site guards; `flip_color` additionally
asserts `!self.is_red()`, which the call site does not guard, so the checked
fix-up returns `none` (a panic) when that assertion fails. -/
def balanceChk (x : RBNode K V) : Option (RBNode K V) :=
  let x2 := fix2 (fix1 x)
  if isRed x2.left && isRed x2.right then
    if isRed x2 then none else some (flipColor x2)
  else some x2

/-- The recursive `put` with assertions modelled: `none` means a Rust panic. -/
def putChk [LinearOrder K] : RBNode K V → K → V → Option (RBNode K V)
  | nil, key, val => some (node key val nil nil Color.Red)
  | node k v l r c, key, val =>
    if key < k then (putChk l key val).bind fun l2 => balanceChk (node k v l2 r c)
    else if k < key then (putChk r key val).bind fun r2 => balanceChk (node k v l r2 c)
    else balanceChk (node k val l r c)

/-- All keys of the tree satisfy the (boolean) predicate `p`. -/
def all (p : K → Bool) : RBNode K V → Bool
  | nil => true
  | node k _ l r _ => p k && l.all p && r.all p

/-- The binary-search-tree order invariant: at every node, every key of the
left subtree is strictly less than the node's key and every key of the right
subtree is strictly greater. -/
def ordered [LinearOrder K] : RBNode K V → Bool
  | nil => true
  | node k _ l r _ =>
    l.all (fun x => decide (x < k)) && r.all (fun x => decide (k < x)) &&
      ordered l && ordered r

/-- No Red node has a Red child: no root-to-leaf path carries two consecutive
Red links. -/
def noRedRed : RBNode K V → Bool
  | nil => true
  | node _ _ l r c =>
    (decide (c = Color.Black) || (!isRed l && !isRed r)) && noRedRed l && noRedRed r

/-- Left-leaning: no node anywhere has a Red right child. -/
def leftLeaning : RBNode K V → Bool
  | nil => true
  | node _ _ l r _ => !isRed r && leftLeaning l && leftLeaning r

/-- The number of Black links on the left spine (the black-height when the
tree is black-balanced). -/
def blackHeight : RBNode K V → Nat
  | nil => 0
  | node _ _ l _ c => blackHeight l + (if c = Color.Black then 1 else 0)

/-- Perfect black-balance: at every node both subtrees carry the same
black-height. -/
def balancedB : RBNode K V → Bool
  | nil => true
  | node _ _ l r _ => (blackHeight l == blackHeight r) && balancedB l && balancedB r

/-- The multiset of Black-link counts over all root-to-leaf paths (one entry
per absent link reached). -/
def pathBlacks : RBNode K V → List Nat
  | nil => [0]
  | node _ _ l r c =>
    (pathBlacks l ++ pathBlacks r).map (fun n => n + if c = Color.Black then 1 else 0)

/-- The red-black shape invariant maintained by insertion-only workloads:
no two consecutive Red links, left-leaning, perfectly black-balanced. -/
def shapeOK (t : RBNode K V) : Bool :=
  noRedRed t && leftLeaning t && balancedB t

end RBNode

open RBNode

variable {K V : Type}

/-- Association-list lookup keyed on the first component: the abstract model
of `get` over the in-order `pairs` sequence. -/
def assocGet [DecidableEq K] (ps : List (K × V)) (q : K) : Option V :=
  (ps.find? (fun p => decide (p.1 = q))).map Prod.snd

/-- Sorted-association-list insertion: the abstract model of `put` over the
in-order `pairs` sequence. -/
def insertPairs [LinearOrder K] : List (K × V) → K → V → List (K × V)
  | [], key, val => [(key, val)]
  | (k, v) :: ps, key, val =>
    if key < k then (key, val) :: (k, v) :: ps
    else if k < key then (k, v) :: insertPairs ps key val
    else (k, val) :: ps

/-- The structural invariant of a left-leaning red-black tree, indexed by the
root color and the black-height (number of Black nodes on every root-to-leaf
path): a Red node has two black-rooted subtrees of equal black-height, a
Black node has a black-rooted right subtree and a subtree pair of equal
black-height. -/
inductive LL : RBNode K V → Color → Nat → Prop where
  | nil : LL RBNode.nil Color.Black 0
  | red {k : K} {v : V} {l r : RBNode K V} {n : Nat} :
      LL l Color.Black n → LL r Color.Black n →
      LL (RBNode.node k v l r Color.Red) Color.Red n
  | black {k : K} {v : V} {l r : RBNode K V} {cl : Color} {n : Nat} :
      LL l cl n → LL r Color.Black n →
      LL (RBNode.node k v l r Color.Black) Color.Black (n + 1)

/-- "Almost left-leaning red-black": either a genuine LLRB tree, or a Red
root whose left child is also Red (the single temporary violation the
recursive `put` may hand to its caller). -/
inductive AlmostLL : RBNode K V → Nat → Prop where
  | ok {t : RBNode K V} {c : Color} {n : Nat} : LL t c n → AlmostLL t n
  | rr {k : K} {v : V} {l r : RBNode K V} {n : Nat} :
      LL l Color.Red n → LL r Color.Black n →
      AlmostLL (RBNode.node k v l r Color.Red) n

/-- The states of `RedBlackBST` reachable from the empty tree by the four
mutating public operations. -/
inductive Reachable [LinearOrder K] : RBNode K V → Prop where
  | empty : Reachable nil
  | putStep (t : RBNode K V) (k : K) (v : V) : Reachable t → Reachable (put t k v)
  | deleteStep (t : RBNode K V) (k : K) : Reachable t → Reachable (delete t k)
  | deleteMinStep (t : RBNode K V) : Reachable t → Reachable (deleteMin t)
  | deleteMaxStep (t : RBNode K V) : Reachable t → Reachable (deleteMax t)

/-- The states reachable from the empty tree by `put` alone. -/
inductive PutOnly [LinearOrder K] : RBNode K V → Prop where
  | empty : PutOnly nil
  | putStep (t : RBNode K V) (k : K) (v : V) : PutOnly t → PutOnly (put t k v)

/-- The tree of the repository test `test_red_black_tree`: the 11 puts with
keys `S,E,A,R,C,H,E,X,A,M,P` and the 0-based insertion position as value. -/
def scenarioTree : RBNode Char Nat :=
  ("SEARCHEXAMP".toList).enum.foldl (fun t p => put t p.2 p.1) nil

/-- The tree of the repository test `test_red_black_tree_shape`: the keys of
the Rust range `0..255` (that is `0` through `254`) inserted in increasing
order by `put` alone. -/
def shapeTree : RBNode Nat Unit :=
  (List.range 255).foldl (fun t k => put t k ()) nil

/-- A tree reachable through the public operations on which the next `put`
hits the `flip_color` assertion `!self.is_red()`: seven operations starting
from the empty tree. -/
def panicTree : RBNode Nat Nat :=
  delete (put (delete (put (put (put (put nil 0 0) 1 0) 2 0) 3 0) 0) 0 0) 1

/-! ## Preservation of the BST-order invariant -/

namespace RBNode

theorem all_imp {p q : K → Bool} {t : RBNode K V} (h : t.all p = true)
    (hpq : ∀ x, p x = true → q x = true) : t.all q = true := by
  induction t with
  | nil => rfl
  | node k v l r c ihl ihr =>
    simp only [all, Bool.and_eq_true] at h ⊢
    exact ⟨⟨hpq _ h.1.1, ihl h.1.2⟩, ihr h.2⟩

theorem all_setBlack {p : K → Bool} {t : RBNode K V} :
    (setBlack t).all p = t.all p := by
  cases t <;> rfl

theorem ordered_setBlack [LinearOrder K] {t : RBNode K V} :
    ordered (setBlack t) = ordered t := by
  cases t <;> rfl

theorem all_rotateLeft {p : K → Bool} {t : RBNode K V} :
    (rotateLeft t).all p = true ↔ t.all p = true := by
  cases t with
  | nil => exact Iff.rfl
  | node k v l r c =>
    cases r with
    | nil => exact Iff.rfl
    | node rk rv rl rr rc =>
      simp only [rotateLeft, all, Bool.and_eq_true]
      tauto

theorem all_rotateRight {p : K → Bool} {t : RBNode K V} :
    (rotateRight t).all p = true ↔ t.all p = true := by
  cases t with
  | nil => exact Iff.rfl
  | node k v l r c =>
    cases l with
    | nil => exact Iff.rfl
    | node lk lv ll lr lc =>
      simp only [rotateRight, all, Bool.and_eq_true]
      tauto

theorem all_flipColor {p : K → Bool} {t : RBNode K V} :
    (flipColor t).all p = true ↔ t.all p = true := by
  cases t with
  | nil => exact Iff.rfl
  | node k v l r c => simp only [flipColor, all, all_setBlack]

theorem ordered_rotateLeft [LinearOrder K] {t : RBNode K V}
    (h : ordered t = true) : ordered (rotateLeft t) = true := by
  cases t with
  | nil => exact h
  | node k v l r c =>
    cases r with
    | nil => exact h
    | node rk rv rl rr rc =>
      simp only [rotateLeft, ordered, all, Bool.and_eq_true, decide_eq_true_eq] at h ⊢
      obtain ⟨⟨⟨hls, ⟨⟨hk, hrlg⟩, hrrg⟩⟩, hlo⟩, ⟨⟨⟨hrll, hrrg2⟩, hrlo⟩, hrro⟩⟩ := h
      have limp : l.all (fun x => decide (x < rk)) = true := by
        refine all_imp hls fun x hx => ?_
        simp only [decide_eq_true_eq] at hx ⊢
        exact lt_trans hx hk
      exact ⟨⟨⟨⟨⟨hk, limp⟩, hrll⟩, hrrg2⟩, ⟨⟨⟨hls, hrlg⟩, hlo⟩, hrlo⟩⟩, hrro⟩

theorem ordered_rotateRight [LinearOrder K] {t : RBNode K V}
    (h : ordered t = true) : ordered (rotateRight t) = true := by
  cases t with
  | nil => exact h
  | node k v l r c =>
    cases l with
    | nil => exact h
    | node lk lv ll lr lc =>
      simp only [rotateRight, ordered, all, Bool.and_eq_true, decide_eq_true_eq] at h ⊢
      obtain ⟨⟨⟨⟨⟨hlk, hlls⟩, hlrs⟩, hrs⟩, ⟨⟨⟨hlll, hlrg⟩, hllo⟩, hlro⟩⟩, hro⟩ := h
      have rimp : r.all (fun x => decide (lk < x)) = true := by
        refine all_imp hrs fun x hx => ?_
        simp only [decide_eq_true_eq] at hx ⊢
        exact lt_trans hlk hx
      exact ⟨⟨⟨hlll, ⟨⟨hlk, hlrg⟩, rimp⟩⟩, hllo⟩, ⟨⟨⟨hlrs, hrs⟩, hlro⟩, hro⟩⟩

theorem ordered_flipColor [LinearOrder K] {t : RBNode K V}
    (h : ordered t = true) : ordered (flipColor t) = true := by
  cases t with
  | nil => exact h
  | node k v l r c =>
    simpa only [flipColor, ordered, all_setBlack, ordered_setBlack] using h

theorem all_fix1 {p : K → Bool} {x : RBNode K V} :
    (fix1 x).all p = true ↔ x.all p = true := by
  unfold fix1
  split
  · exact all_rotateLeft
  · exact Iff.rfl

theorem all_fix2 {p : K → Bool} {x : RBNode K V} :
    (fix2 x).all p = true ↔ x.all p = true := by
  unfold fix2
  split
  · exact all_rotateRight
  · exact Iff.rfl

theorem all_fix3 {p : K → Bool} {x : RBNode K V} :
    (fix3 x).all p = true ↔ x.all p = true := by
  unfold fix3
  split
  · exact all_flipColor
  · exact Iff.rfl

theorem all_balanceFix {p : K → Bool} {x : RBNode K V} :
    (balanceFix x).all p = true ↔ x.all p = true :=
  all_fix3.trans (all_fix2.trans all_fix1)

theorem ordered_fix1 [LinearOrder K] {x : RBNode K V}
    (h : ordered x = true) : ordered (fix1 x) = true := by
  unfold fix1
  split
  · exact ordered_rotateLeft h
  · exact h

theorem ordered_fix2 [LinearOrder K] {x : RBNode K V}
    (h : ordered x = true) : ordered (fix2 x) = true := by
  unfold fix2
  split
  · exact ordered_rotateRight h
  · exact h

theorem ordered_fix3 [LinearOrder K] {x : RBNode K V}
    (h : ordered x = true) : ordered (fix3 x) = true := by
  unfold fix3
  split
  · exact ordered_flipColor h
  · exact h

theorem ordered_balanceFix [LinearOrder K] {x : RBNode K V}
    (h : ordered x = true) : ordered (balanceFix x) = true :=
  ordered_fix3 (ordered_fix2 (ordered_fix1 h))

theorem all_putAux [LinearOrder K] {p : K → Bool} {t : RBNode K V} {key : K} {val : V}
    (hk : p key = true) (h : t.all p = true) : (putAux t key val).all p = true := by
  induction t with
  | nil => simp only [putAux, all, Bool.and_eq_true]; exact ⟨⟨hk, trivial⟩, trivial⟩
  | node k v l r c ihl ihr =>
    simp only [all, Bool.and_eq_true] at h
    simp only [putAux]
    split
    · exact all_balanceFix.mpr (by
        simp only [all, Bool.and_eq_true]
        exact ⟨⟨h.1.1, ihl h.1.2⟩, h.2⟩)
    · split
      · exact all_balanceFix.mpr (by
          simp only [all, Bool.and_eq_true]
          exact ⟨⟨h.1.1, h.1.2⟩, ihr h.2⟩)
      · exact all_balanceFix.mpr (by
          simp only [all, Bool.and_eq_true]
          exact ⟨⟨h.1.1, h.1.2⟩, h.2⟩)

theorem ordered_putAux [LinearOrder K] {t : RBNode K V} {key : K} {val : V}
    (h : ordered t = true) : ordered (putAux t key val) = true := by
  induction t with
  | nil => rfl
  | node k v l r c ihl ihr =>
    simp only [ordered, Bool.and_eq_true] at h
    obtain ⟨⟨⟨hls, hrs⟩, hlo⟩, hro⟩ := h
    simp only [putAux]
    split
    · next hlt =>
      refine ordered_balanceFix ?_
      simp only [ordered, Bool.and_eq_true]
      exact ⟨⟨⟨all_putAux (by simpa using hlt) hls, hrs⟩, ihl hlo⟩, hro⟩
    · split
      · next hgt =>
        refine ordered_balanceFix ?_
        simp only [ordered, Bool.and_eq_true]
        exact ⟨⟨⟨hls, all_putAux (by simpa using hgt) hrs⟩, hlo⟩, ihr hro⟩
      · refine ordered_balanceFix ?_
        simp only [ordered, Bool.and_eq_true]
        exact ⟨⟨⟨hls, hrs⟩, hlo⟩, hro⟩

theorem ordered_put [LinearOrder K] {t : RBNode K V} {key : K} {val : V}
    (h : ordered t = true) : ordered (put t key val) = true := by
  simpa only [put, ordered_setBlack] using ordered_putAux h

theorem keys_eq_map_pairs (t : RBNode K V) : keys t = (pairs t).map Prod.fst := by
  induction t with
  | nil => rfl
  | node k v l r c ihl ihr => simp [keys, pairs, ihl, ihr]

theorem all_iff_keys {p : K → Bool} {t : RBNode K V} :
    t.all p = true ↔ ∀ x ∈ keys t, p x = true := by
  induction t with
  | nil => simp [all, keys]
  | node k v l r c ihl ihr =>
    simp only [all, keys, Bool.and_eq_true, ihl, ihr, List.mem_append, List.mem_cons]
    constructor
    · rintro ⟨⟨hk, hl⟩, hr⟩ x (hx | hx | hx)
      · exact hl x hx
      · exact hx ▸ hk
      · exact hr x hx
    · intro h
      exact ⟨⟨h k (Or.inr (Or.inl rfl)), fun x hx => h x (Or.inl hx)⟩,
        fun x hx => h x (Or.inr (Or.inr hx))⟩

theorem all_mem_pairs {p : K → Bool} {t : RBNode K V} (h : t.all p = true) :
    ∀ q ∈ pairs t, p q.1 = true := by
  intro q hq
  refine all_iff_keys.mp h q.1 ?_
  rw [keys_eq_map_pairs]
  exact List.mem_map_of_mem Prod.fst hq

theorem pairwise_keys [LinearOrder K] {t : RBNode K V} (h : ordered t = true) :
    (keys t).Pairwise (· < ·) := by
  induction t with
  | nil => exact List.Pairwise.nil
  | node k v l r c ihl ihr =>
    simp only [ordered, Bool.and_eq_true] at h
    obtain ⟨⟨⟨hls, hrs⟩, hlo⟩, hro⟩ := h
    have hl := all_iff_keys.mp hls
    have hr := all_iff_keys.mp hrs
    simp only [decide_eq_true_eq] at hl hr
    refine (List.pairwise_append).mpr ⟨ihl hlo, List.pairwise_cons.mpr ⟨hr, ihr hro⟩, ?_⟩
    intro a ha b hb
    rcases List.mem_cons.mp hb with rfl | hb
    · exact hl a ha
    · exact lt_trans (hl a ha) (hr b hb)

theorem deleteMinAux_spec {t : RBNode K V} (h : t ≠ nil) :
    ∃ m mv mc, (deleteMinAux t).2 = node m mv nil nil mc ∧
      pairs t = (m, mv) :: pairs (deleteMinAux t).1 ∧ findMin t = some m := by
  induction t with
  | nil => exact absurd rfl h
  | node k v l r c ihl ihr =>
    cases l with
    | nil => exact ⟨k, v, c, rfl, rfl, rfl⟩
    | node lk lv ll lr lc =>
      obtain ⟨m, mv, mc, hd, hp, hm⟩ := ihl (by simp)
      refine ⟨m, mv, mc, hd, ?_, hm⟩
      show pairs (node lk lv ll lr lc) ++ (k, v) :: pairs r =
        (m, mv) :: (pairs (deleteMinAux (node lk lv ll lr lc)).1 ++ (k, v) :: pairs r)
      rw [hp, List.cons_append]

theorem all_deleteMinAux1 {p : K → Bool} {t : RBNode K V} (h : t.all p = true) :
    (deleteMinAux t).1.all p = true := by
  induction t with
  | nil => exact h
  | node k v l r c ihl ihr =>
    simp only [all, Bool.and_eq_true] at h
    cases l with
    | nil => exact h.2
    | node lk lv ll lr lc =>
      simp only [deleteMinAux, all, Bool.and_eq_true]
      exact ⟨⟨h.1.1, ihl h.1.2⟩, h.2⟩

theorem ordered_deleteMinAux [LinearOrder K] {t : RBNode K V} (h : ordered t = true) :
    ordered (deleteMinAux t).1 = true := by
  induction t with
  | nil => exact h
  | node k v l r c ihl ihr =>
    simp only [ordered, Bool.and_eq_true] at h
    obtain ⟨⟨⟨hls, hrs⟩, hlo⟩, hro⟩ := h
    cases l with
    | nil => exact hro
    | node lk lv ll lr lc =>
      simp only [deleteMinAux, ordered, Bool.and_eq_true]
      exact ⟨⟨⟨all_deleteMinAux1 hls, hrs⟩, ihl hlo⟩, hro⟩

theorem deleteMaxAux_spec {t : RBNode K V} (h : t ≠ nil) :
    ∃ m mv mc, (deleteMaxAux t).2 = node m mv nil nil mc ∧
      pairs t = pairs (deleteMaxAux t).1 ++ [(m, mv)] ∧ findMax t = some m := by
  induction t with
  | nil => exact absurd rfl h
  | node k v l r c ihl ihr =>
    cases r with
    | nil => exact ⟨k, v, c, rfl, by simp [pairs, deleteMaxAux], rfl⟩
    | node rk rv rl rr rc =>
      obtain ⟨m, mv, mc, hd, hp, hm⟩ := ihr (by simp)
      refine ⟨m, mv, mc, hd, ?_, hm⟩
      show pairs l ++ (k, v) :: pairs (node rk rv rl rr rc) =
        (pairs l ++ (k, v) :: pairs (deleteMaxAux (node rk rv rl rr rc)).1) ++ [(m, mv)]
      rw [hp]
      simp

theorem all_deleteMaxAux1 {p : K → Bool} {t : RBNode K V} (h : t.all p = true) :
    (deleteMaxAux t).1.all p = true := by
  induction t with
  | nil => exact h
  | node k v l r c ihl ihr =>
    simp only [all, Bool.and_eq_true] at h
    cases r with
    | nil => exact h.1.2
    | node rk rv rl rr rc =>
      simp only [deleteMaxAux, all, Bool.and_eq_true]
      exact ⟨⟨h.1.1, h.1.2⟩, ihr h.2⟩

theorem ordered_deleteMaxAux [LinearOrder K] {t : RBNode K V} (h : ordered t = true) :
    ordered (deleteMaxAux t).1 = true := by
  induction t with
  | nil => exact h
  | node k v l r c ihl ihr =>
    simp only [ordered, Bool.and_eq_true] at h
    obtain ⟨⟨⟨hls, hrs⟩, hlo⟩, hro⟩ := h
    cases r with
    | nil => exact hlo
    | node rk rv rl rr rc =>
      simp only [deleteMaxAux, ordered, Bool.and_eq_true]
      exact ⟨⟨⟨hls, all_deleteMaxAux1 hrs⟩, hlo⟩, ihr hro⟩

theorem all_deleteAux [LinearOrder K] {p : K → Bool} {t : RBNode K V} {key : K}
    (h : t.all p = true) : (deleteAux t key).all p = true := by
  induction t with
  | nil => exact h
  | node k v l r c ihl ihr =>
    simp only [all, Bool.and_eq_true] at h
    obtain ⟨⟨hk, hl⟩, hr⟩ := h
    simp only [deleteAux]
    split
    · simp only [all, Bool.and_eq_true]
      exact ⟨⟨hk, ihl hl⟩, hr⟩
    · split
      · simp only [all, Bool.and_eq_true]
        exact ⟨⟨hk, hl⟩, ihr hr⟩
      · cases r with
        | nil => exact hl
        | node rk rv rl rr rc =>
          cases l with
          | nil => exact hr
          | node lk lv ll lr lc =>
            obtain ⟨m, mv, mc, hd, hp, hm⟩ :=
              deleteMinAux_spec (t := node rk rv rl rr rc) (by simp)
            have hpm : p m = true := by
              have := all_mem_pairs hr (m, mv) (by rw [hp]; exact List.mem_cons_self _ _)
              exact this
            simp only [hd, all, Bool.and_eq_true]
            refine ⟨⟨hpm, ?_⟩, all_deleteMinAux1 hr⟩
            simpa only [all, Bool.and_eq_true] using hl

theorem ordered_deleteAux [LinearOrder K] {t : RBNode K V} {key : K}
    (h : ordered t = true) : ordered (deleteAux t key) = true := by
  induction t with
  | nil => exact h
  | node k v l r c ihl ihr =>
    simp only [ordered, Bool.and_eq_true] at h
    obtain ⟨⟨⟨hls, hrs⟩, hlo⟩, hro⟩ := h
    simp only [deleteAux]
    split
    · simp only [ordered, Bool.and_eq_true]
      exact ⟨⟨⟨all_deleteAux hls, hrs⟩, ihl hlo⟩, hro⟩
    · split
      · simp only [ordered, Bool.and_eq_true]
        exact ⟨⟨⟨hls, all_deleteAux hrs⟩, hlo⟩, ihr hro⟩
      · cases r with
        | nil => exact hlo
        | node rk rv rl rr rc =>
          cases l with
          | nil => exact hro
          | node lk lv ll lr lc =>
            obtain ⟨m, mv, mc, hd, hp, hm⟩ :=
              deleteMinAux_spec (t := node rk rv rl rr rc) (by simp)
            have hkm : k < m := by
              have := all_mem_pairs hrs (m, mv) (by rw [hp]; exact List.mem_cons_self _ _)
              simpa using this
            have hordr : ordered (deleteMinAux (node rk rv rl rr rc)).1 = true :=
              ordered_deleteMinAux hro
            have hgt : (deleteMinAux (node rk rv rl rr rc)).1.all
                (fun x => decide (m < x)) = true := by
              refine all_iff_keys.mpr fun x hx => ?_
              have hsorted := pairwise_keys hro
              rw [keys_eq_map_pairs, hp] at hsorted
              simp only [List.map_cons, List.pairwise_cons] at hsorted
              have : x ∈ (pairs (deleteMinAux (node rk rv rl rr rc)).1).map Prod.fst := by
                rw [← keys_eq_map_pairs]; exact hx
              simpa using hsorted.1 x this
            have hlt : (node lk lv ll lr lc).all (fun x => decide (x < m)) = true := by
              refine all_imp hls fun x hx => ?_
              simp only [decide_eq_true_eq] at hx ⊢
              exact lt_trans hx hkm
            simp only [hd, ordered, Bool.and_eq_true]
            refine ⟨⟨⟨hlt, hgt⟩, ?_⟩, hordr⟩
            simpa only [ordered, Bool.and_eq_true] using hlo

end RBNode

theorem reachable_ordered [LinearOrder K] {t : RBNode K V} (h : Reachable t) :
    ordered t = true := by
  induction h with
  | empty => rfl
  | putStep t k v _ ih => exact ordered_put ih
  | deleteStep t k _ ih => exact ordered_deleteAux ih
  | deleteMinStep t _ ih => exact ordered_deleteMinAux ih
  | deleteMaxStep t _ ih => exact ordered_deleteMaxAux ih

/-! ## The association-list model of the table -/

theorem assocGet_cons [DecidableEq K] (k : K) (v : V) (ps : List (K × V)) (q : K) :
    assocGet ((k, v) :: ps) q = if k = q then some v else assocGet ps q := by
  by_cases h : k = q
  · simp [assocGet, List.find?_cons_of_pos, h]
  · simp [assocGet, List.find?_cons_of_neg, h]

theorem assocGet_eq_none [DecidableEq K] {ps : List (K × V)} {q : K}
    (h : ∀ p ∈ ps, p.1 ≠ q) : assocGet ps q = none := by
  have : ps.find? (fun p => decide (p.1 = q)) = none :=
    List.find?_eq_none.mpr fun p hp => by simpa using h p hp
  simp [assocGet, this]

theorem assocGet_append [DecidableEq K] (ps qs : List (K × V)) (q : K) :
    assocGet (ps ++ qs) q = (assocGet ps q).orElse (fun _ => assocGet qs q) := by
  induction ps with
  | nil => simp [assocGet]
  | cons p ps ih =>
    obtain ⟨k, v⟩ := p
    by_cases h : k = q
    · simp [assocGet_cons, h]
    · simp [assocGet_cons, h, ih]

theorem get_eq_assocGet [LinearOrder K] {t : RBNode K V} (h : ordered t = true) (q : K) :
    get t q = assocGet (pairs t) q := by
  induction t with
  | nil => rfl
  | node k v l r c ihl ihr =>
    simp only [ordered, Bool.and_eq_true] at h
    obtain ⟨⟨⟨hls, hrs⟩, hlo⟩, hro⟩ := h
    have hlkeys : ∀ p ∈ pairs l, p.1 < k := fun p hp => by
      simpa using all_mem_pairs hls p hp
    have hrkeys : ∀ p ∈ pairs r, k < p.1 := fun p hp => by
      simpa using all_mem_pairs hrs p hp
    show RBNode.get (node k v l r c) q = assocGet (pairs l ++ (k, v) :: pairs r) q
    rw [assocGet_append]
    simp only [RBNode.get]
    split
    · next hq =>
      have h2 : assocGet ((k, v) :: pairs r) q = none := by
        refine assocGet_eq_none ?_
        intro p hp
        rcases List.mem_cons.mp hp with rfl | hp2
        · intro he
          have hkq : k = q := he
          rw [hkq] at hq
          exact lt_irrefl q hq
        · intro he
          have hq2 : q < p.1 := lt_trans hq (hrkeys p hp2)
          rw [he] at hq2
          exact lt_irrefl q hq2
      rw [h2, Option.orElse_none', ihl hlo]
    · split
      · next hq1 hq2 =>
        have h1 : assocGet (pairs l) q = none := by
          refine assocGet_eq_none ?_
          intro p hp he
          exact absurd (he ▸ hlkeys p hp) (not_lt_of_gt hq2)
        have hkq : ¬ k = q := fun he => absurd (he ▸ hq2) (lt_irrefl q)
        rw [h1, Option.none_orElse', assocGet_cons, if_neg hkq, ihr hro]
      · next hq1 hq2 =>
        have hqk : k = q := le_antisymm (not_lt.mp hq1) (not_lt.mp hq2)
        have h1 : assocGet (pairs l) q = none := by
          refine assocGet_eq_none ?_
          intro p hp he
          have hqlt : q < k := he ▸ hlkeys p hp
          rw [hqk] at hqlt
          exact lt_irrefl q hqlt
        rw [h1, Option.none_orElse', assocGet_cons, if_pos hqk]

theorem pairs_setBlack (t : RBNode K V) : pairs (setBlack t) = pairs t := by
  cases t <;> rfl

theorem pairs_rotateLeft (t : RBNode K V) : pairs (rotateLeft t) = pairs t := by
  cases t with
  | nil => rfl
  | node k v l r c =>
    cases r with
    | nil => rfl
    | node rk rv rl rr rc => simp [rotateLeft, pairs]

theorem pairs_rotateRight (t : RBNode K V) : pairs (rotateRight t) = pairs t := by
  cases t with
  | nil => rfl
  | node k v l r c =>
    cases l with
    | nil => rfl
    | node lk lv ll lr lc => simp [rotateRight, pairs]

theorem pairs_flipColor (t : RBNode K V) : pairs (flipColor t) = pairs t := by
  cases t with
  | nil => rfl
  | node k v l r c => simp [flipColor, pairs, pairs_setBlack]

theorem pairs_balanceFix (x : RBNode K V) : pairs (balanceFix x) = pairs x := by
  unfold balanceFix fix3 fix2 fix1
  split
  · split
    · split
      · rw [pairs_flipColor, pairs_rotateRight, pairs_rotateLeft]
      · rw [pairs_rotateRight, pairs_rotateLeft]
    · split
      · rw [pairs_flipColor, pairs_rotateLeft]
      · rw [pairs_rotateLeft]
  · split
    · split
      · rw [pairs_flipColor, pairs_rotateRight]
      · rw [pairs_rotateRight]
    · split
      · rw [pairs_flipColor]
      · rfl

theorem insertPairs_append_lt [LinearOrder K] {A B : List (K × V)} {k key : K} {v val : V}
    (h : key < k) :
    insertPairs (A ++ (k, v) :: B) key val = insertPairs A key val ++ (k, v) :: B := by
  induction A with
  | nil => simp [insertPairs, h]
  | cons a A ih =>
    obtain ⟨ak, av⟩ := a
    simp only [List.cons_append, insertPairs]
    split
    · simp
    · split
      · simp [ih]
      · simp

theorem insertPairs_append_gt [LinearOrder K] {A B : List (K × V)} {k key : K} {v val : V}
    (hA : ∀ a ∈ A, a.1 < key) (h : k < key) :
    insertPairs (A ++ (k, v) :: B) key val = A ++ (k, v) :: insertPairs B key val := by
  induction A with
  | nil =>
    simp only [List.nil_append, insertPairs]
    rw [if_neg (not_lt_of_gt h), if_pos h]
  | cons a A ih =>
    obtain ⟨ak, av⟩ := a
    have hak : ak < key := by simpa using hA (ak, av) (List.mem_cons_self _ _)
    simp only [List.cons_append, insertPairs]
    rw [if_neg (not_lt_of_gt hak), if_pos hak]
    simp only [List.append_eq]
    rw [ih fun a ha => hA a (List.mem_cons_of_mem _ ha)]

theorem insertPairs_append_eq [LinearOrder K] {A B : List (K × V)} {k : K} {v val : V}
    (hA : ∀ a ∈ A, a.1 < k) :
    insertPairs (A ++ (k, v) :: B) k val = A ++ (k, val) :: B := by
  induction A with
  | nil =>
    simp only [List.nil_append, insertPairs]
    rw [if_neg (lt_irrefl k), if_neg (lt_irrefl k)]
  | cons a A ih =>
    obtain ⟨ak, av⟩ := a
    have hak : ak < k := by simpa using hA (ak, av) (List.mem_cons_self _ _)
    simp only [List.cons_append, insertPairs]
    rw [if_neg (not_lt_of_gt hak), if_pos hak]
    simp only [List.append_eq]
    rw [ih fun a ha => hA a (List.mem_cons_of_mem _ ha)]

theorem pairs_putAux [LinearOrder K] {t : RBNode K V} {key : K} {val : V}
    (h : ordered t = true) : pairs (putAux t key val) = insertPairs (pairs t) key val := by
  induction t with
  | nil => rfl
  | node k v l r c ihl ihr =>
    simp only [ordered, Bool.and_eq_true] at h
    obtain ⟨⟨⟨hls, hrs⟩, hlo⟩, hro⟩ := h
    have hlkeys : ∀ p ∈ pairs l, p.1 < k := fun p hp => by
      simpa using all_mem_pairs hls p hp
    show pairs (putAux (node k v l r c) key val) =
      insertPairs (pairs l ++ (k, v) :: pairs r) key val
    simp only [putAux]
    split
    · next hq =>
      rw [pairs_balanceFix, insertPairs_append_lt hq]
      show pairs (putAux l key val) ++ (k, v) :: pairs r = _
      rw [ihl hlo]
    · split
      · next hq1 hq2 =>
        rw [pairs_balanceFix,
          insertPairs_append_gt (fun a ha => lt_trans (hlkeys a ha) hq2) hq2]
        show pairs l ++ (k, v) :: pairs (putAux r key val) = _
        rw [ihr hro]
      · next hq1 hq2 =>
        have hqk : k = key := le_antisymm (not_lt.mp hq1) (not_lt.mp hq2)
        subst hqk
        rw [pairs_balanceFix, insertPairs_append_eq hlkeys]
        rfl

theorem pairs_put [LinearOrder K] {t : RBNode K V} {key : K} {val : V}
    (h : ordered t = true) : pairs (put t key val) = insertPairs (pairs t) key val := by
  rw [put, pairs_setBlack, pairs_putAux h]

theorem assocGet_insertPairs_self [LinearOrder K] (ps : List (K × V)) (key : K) (val : V) :
    assocGet (insertPairs ps key val) key = some val := by
  induction ps with
  | nil => simp [insertPairs, assocGet_cons]
  | cons p ps ih =>
    obtain ⟨k, v⟩ := p
    simp only [insertPairs]
    split
    · next h => rw [assocGet_cons, if_pos rfl]
    · split
      · next h1 h2 => rw [assocGet_cons, if_neg (ne_of_lt h2), ih]
      · next h1 h2 =>
        have : k = key := le_antisymm (not_lt.mp h1) (not_lt.mp h2)
        rw [assocGet_cons, if_pos this]

theorem assocGet_insertPairs_other [LinearOrder K] {ps : List (K × V)} {key q : K} {val : V}
    (h : q ≠ key) : assocGet (insertPairs ps key val) q = assocGet ps q := by
  induction ps with
  | nil =>
    simp only [insertPairs]
    rw [assocGet_cons, if_neg fun he => h he.symm]
  | cons p ps ih =>
    obtain ⟨k, v⟩ := p
    simp only [insertPairs]
    split
    · rw [assocGet_cons, if_neg (fun he => h he.symm), assocGet_cons]
    · split
      · rw [assocGet_cons, assocGet_cons, ih]
      · next h1 h2 =>
        have hk : k = key := le_antisymm (not_lt.mp h1) (not_lt.mp h2)
        subst hk
        rw [assocGet_cons, if_neg (fun he => h he.symm),
          assocGet_cons, if_neg (fun he => h he.symm)]

theorem size_eq_length_pairs (t : RBNode K V) : size t = (pairs t).length := by
  induction t with
  | nil => rfl
  | node k v l r c ihl ihr => simp [size, pairs, ihl, ihr]; omega

/-! ## Size under insertion -/

theorem size_setBlack (t : RBNode K V) : size (setBlack t) = size t := by
  cases t <;> rfl

theorem size_rotateLeft (t : RBNode K V) : size (rotateLeft t) = size t := by
  cases t with
  | nil => rfl
  | node k v l r c =>
    cases r with
    | nil => rfl
    | node rk rv rl rr rc => simp [rotateLeft, size]; omega

theorem size_rotateRight (t : RBNode K V) : size (rotateRight t) = size t := by
  cases t with
  | nil => rfl
  | node k v l r c =>
    cases l with
    | nil => rfl
    | node lk lv ll lr lc => simp [rotateRight, size]; omega

theorem size_flipColor (t : RBNode K V) : size (flipColor t) = size t := by
  cases t with
  | nil => rfl
  | node k v l r c => simp [flipColor, size, size_setBlack]

theorem size_balanceFix (x : RBNode K V) : size (balanceFix x) = size x := by
  unfold balanceFix fix3 fix2 fix1
  split
  · split
    · split
      · rw [size_flipColor, size_rotateRight, size_rotateLeft]
      · rw [size_rotateRight, size_rotateLeft]
    · split
      · rw [size_flipColor, size_rotateLeft]
      · rw [size_rotateLeft]
  · split
    · split
      · rw [size_flipColor, size_rotateRight]
      · rw [size_rotateRight]
    · split
      · rw [size_flipColor]
      · rfl

theorem size_putAux [LinearOrder K] (t : RBNode K V) (key : K) (val : V) :
    size (putAux t key val) = size t + (if (get t key).isSome then 0 else 1) := by
  induction t with
  | nil => rfl
  | node k v l r c ihl ihr =>
    simp only [putAux, RBNode.get]
    split
    · next hq =>
      rw [size_balanceFix]
      show 1 + size (putAux l key val) + size r = _
      rw [ihl]
      simp only [size]
      split <;> omega
    · split
      · next hq1 hq2 =>
        rw [size_balanceFix]
        show 1 + size l + size (putAux r key val) = _
        rw [ihr]
        simp only [size]
        split <;> omega
      · rw [size_balanceFix]
        show 1 + size l + size r = _
        simp only [size, Option.isSome_some, if_true]
        omega

theorem size_put [LinearOrder K] (t : RBNode K V) (key : K) (val : V) :
    size (put t key val) = size t + (if (get t key).isSome then 0 else 1) := by
  rw [put, size_setBlack, size_putAux]

theorem get_put_self [LinearOrder K] {t : RBNode K V} (h : ordered t = true)
    (key : K) (val : V) : get (put t key val) key = some val := by
  rw [get_eq_assocGet (ordered_put h), pairs_put h, assocGet_insertPairs_self]

/-! ## Floor, ceiling and deletion of absent keys -/

theorem floor_present [LinearOrder K] {t : RBNode K V} {key : K} {v : V}
    (h : get t key = some v) : floor t key = some key := by
  induction t with
  | nil => exact absurd h (by simp [RBNode.get])
  | node k v0 l r c ihl ihr =>
    simp only [RBNode.get] at h
    simp only [RBNode.floor]
    split
    · next hq => exact ihl (by rwa [if_pos hq] at h)
    · next hq =>
      split
      · next hq2 =>
        rw [ihr (by rwa [if_neg hq, if_pos hq2] at h)]
      · next hq2 =>
        have hk : k = key := le_antisymm (not_lt.mp hq) (not_lt.mp hq2)
        rw [hk]

theorem ceiling_present [LinearOrder K] {t : RBNode K V} {key : K} {v : V}
    (h : get t key = some v) : ceiling t key = some key := by
  induction t with
  | nil => exact absurd h (by simp [RBNode.get])
  | node k v0 l r c ihl ihr =>
    simp only [RBNode.get] at h
    simp only [RBNode.ceiling]
    split
    · next hq => exact ihr (by rwa [if_neg (lt_asymm hq), if_pos hq] at h)
    · next hq =>
      split
      · next hq2 =>
        rw [ihl (by rwa [if_pos hq2] at h)]
      · next hq2 =>
        have hk : k = key := le_antisymm (not_lt.mp hq2) (not_lt.mp hq)
        rw [hk]

theorem floor_below [LinearOrder K] {t : RBNode K V} {key : K}
    (h : t.all (fun x => decide (key < x)) = true) : floor t key = none := by
  induction t with
  | nil => rfl
  | node k v l r c ihl ihr =>
    simp only [all, Bool.and_eq_true, decide_eq_true_eq] at h
    simp only [RBNode.floor]
    rw [if_pos h.1.1]
    refine ihl ?_
    have := h.1.2
    exact this

theorem ceiling_above [LinearOrder K] {t : RBNode K V} {key : K}
    (h : t.all (fun x => decide (x < key)) = true) : ceiling t key = none := by
  induction t with
  | nil => rfl
  | node k v l r c ihl ihr =>
    simp only [all, Bool.and_eq_true, decide_eq_true_eq] at h
    simp only [RBNode.ceiling]
    rw [if_pos h.1.1]
    exact ihr h.2

theorem findMin_holds {p : K → Bool} {t : RBNode K V} {m : K}
    (h : t.all p = true) (hm : findMin t = some m) : p m = true := by
  induction t with
  | nil => exact Option.noConfusion hm
  | node k v l r c ihl ihr =>
    simp only [all, Bool.and_eq_true] at h
    cases l with
    | nil =>
      simp only [findMin] at hm
      have hkm : k = m := Option.some.inj hm
      exact hkm ▸ h.1.1
    | node lk lv ll lr lc =>
      exact ihl h.1.2 hm

theorem findMax_holds {p : K → Bool} {t : RBNode K V} {m : K}
    (h : t.all p = true) (hm : findMax t = some m) : p m = true := by
  induction t with
  | nil => exact Option.noConfusion hm
  | node k v l r c ihl ihr =>
    simp only [all, Bool.and_eq_true] at h
    cases r with
    | nil =>
      simp only [findMax] at hm
      have hkm : k = m := Option.some.inj hm
      exact hkm ▸ h.1.1
    | node rk rv rl rr rc =>
      exact ihr h.2 hm

theorem all_gt_of_lt_findMin [LinearOrder K] {t : RBNode K V} {m key : K}
    (ho : ordered t = true) (hm : findMin t = some m) (hk : key < m) :
    t.all (fun x => decide (key < x)) = true := by
  induction t with
  | nil => rfl
  | node k v l r c ihl ihr =>
    simp only [ordered, Bool.and_eq_true] at ho
    obtain ⟨⟨⟨hls, hrs⟩, hlo⟩, hro⟩ := ho
    cases l with
    | nil =>
      simp only [findMin] at hm
      have hmk : k = m := Option.some.inj hm
      subst hmk
      simp only [all, Bool.and_eq_true, decide_eq_true_eq]
      refine ⟨⟨hk, trivial⟩, ?_⟩
      refine all_imp hrs fun x hx => ?_
      simp only [decide_eq_true_eq] at hx ⊢
      exact lt_trans hk hx
    | node lk lv ll lr lc =>
      have hmk : m < k := by
        have := findMin_holds hls hm
        simpa using this
      simp only [all, Bool.and_eq_true, decide_eq_true_eq]
      refine ⟨⟨lt_trans hk hmk, ?_⟩, ?_⟩
      · simpa only [all, Bool.and_eq_true, decide_eq_true_eq] using ihl hlo hm
      · refine all_imp hrs fun x hx => ?_
        simp only [decide_eq_true_eq] at hx ⊢
        exact lt_trans (lt_trans hk hmk) hx

theorem all_lt_of_findMax_lt [LinearOrder K] {t : RBNode K V} {m key : K}
    (ho : ordered t = true) (hm : findMax t = some m) (hk : m < key) :
    t.all (fun x => decide (x < key)) = true := by
  induction t with
  | nil => rfl
  | node k v l r c ihl ihr =>
    simp only [ordered, Bool.and_eq_true] at ho
    obtain ⟨⟨⟨hls, hrs⟩, hlo⟩, hro⟩ := ho
    cases r with
    | nil =>
      simp only [findMax] at hm
      have hmk : k = m := Option.some.inj hm
      subst hmk
      simp only [all, Bool.and_eq_true, decide_eq_true_eq]
      refine ⟨⟨hk, ?_⟩, trivial⟩
      refine all_imp hls fun x hx => ?_
      simp only [decide_eq_true_eq] at hx ⊢
      exact lt_trans hx hk
    | node rk rv rl rr rc =>
      have hmk : k < m := by
        have := findMax_holds hrs hm
        simpa using this
      simp only [all, Bool.and_eq_true, decide_eq_true_eq]
      refine ⟨⟨lt_trans hmk hk, ?_⟩, ?_⟩
      · refine all_imp hls fun x hx => ?_
        simp only [decide_eq_true_eq] at hx ⊢
        exact lt_trans hx (lt_trans hmk hk)
      · simpa only [all, Bool.and_eq_true, decide_eq_true_eq] using ihr hro hm

theorem delete_absent_aux [LinearOrder K] {t : RBNode K V} {key : K}
    (h : get t key = none) : deleteAux t key = t := by
  induction t with
  | nil => rfl
  | node k v l r c ihl ihr =>
    simp only [RBNode.get] at h
    simp only [deleteAux]
    split
    · next hq => rw [ihl (by rwa [if_pos hq] at h)]
    · next hq =>
      split
      · next hq2 => rw [ihr (by rwa [if_neg hq, if_pos hq2] at h)]
      · next hq2 =>
        rw [if_neg hq, if_neg hq2] at h
        exact Option.noConfusion h

/-! ## Rank and select -/

theorem size_eq_length_keys (t : RBNode K V) : size t = (keys t).length := by
  rw [keys_eq_map_pairs, List.length_map, size_eq_length_pairs]

theorem rank_eq_filter [LinearOrder K] {t : RBNode K V} (h : ordered t = true) (q : K) :
    rank t q = ((keys t).filter (fun x => decide (x < q))).length := by
  induction t with
  | nil => rfl
  | node k v l r c ihl ihr =>
    simp only [ordered, Bool.and_eq_true] at h
    obtain ⟨⟨⟨hls, hrs⟩, hlo⟩, hro⟩ := h
    have hlk : ∀ x ∈ keys l, x < k := fun x hx => by
      simpa using all_iff_keys.mp hls x hx
    have hrk : ∀ x ∈ keys r, k < x := fun x hx => by
      simpa using all_iff_keys.mp hrs x hx
    show rank (node k v l r c) q = _
    rw [show keys (node k v l r c) = keys l ++ k :: keys r from rfl,
      List.filter_append, List.filter_cons]
    simp only [RBNode.rank]
    split
    · next hq =>
      rw [if_neg (by simp [not_lt_of_gt hq]),
        show (keys r).filter (fun x => decide (x < q)) = [] from
          List.filter_eq_nil.mpr fun x hx => by
            simp [not_lt_of_gt (lt_trans hq (hrk x hx))]]
      simp only [List.length_append, List.length_nil]
      rw [ihl hlo]
      omega
    · split
      · next hq1 hq2 =>
        rw [if_pos (by simp [hq2]),
          show (keys l).filter (fun x => decide (x < q)) = keys l from
            List.filter_eq_self.mpr fun x hx => by
              simp [lt_trans (hlk x hx) hq2]]
        simp only [List.length_append, List.length_cons]
        rw [ihr hro, size_eq_length_keys]
        omega
      · next hq1 hq2 =>
        have hkq : k = q := le_antisymm (not_lt.mp hq1) (not_lt.mp hq2)
        subst hkq
        rw [if_neg (by simp),
          show (keys l).filter (fun x => decide (x < k)) = keys l from
            List.filter_eq_self.mpr fun x hx => by simp [hlk x hx],
          show (keys r).filter (fun x => decide (x < k)) = [] from
            List.filter_eq_nil.mpr fun x hx => by simp [not_lt_of_gt (hrk x hx)]]
        simp only [List.length_append, List.length_nil]
        rw [size_eq_length_keys]
        omega

theorem length_filter_lt_get [LinearOrder K] {L : List K} (hL : L.Pairwise (· < ·))
    {i : Nat} (hi : i < L.length) :
    (L.filter (fun x => decide (x < L.get ⟨i, hi⟩))).length = i := by
  induction L generalizing i with
  | nil => exact absurd hi (by simp)
  | cons a L ih =>
    obtain ⟨ha, hL2⟩ := List.pairwise_cons.mp hL
    cases i with
    | zero =>
      show (List.filter (fun x => decide (x < a)) (a :: L)).length = 0
      rw [List.filter_cons_of_neg (by simp),
        show L.filter (fun x => decide (x < a)) = [] from
          List.filter_eq_nil.mpr fun x hx => by simp [not_lt_of_gt (ha x hx)]]
      rfl
    | succ j =>
      have hj : j < L.length := by simpa using hi
      have hb : a < L.get ⟨j, hj⟩ := ha _ (L.get_mem j hj)
      show (List.filter (fun x => decide (x < L.get ⟨j, hj⟩)) (a :: L)).length = j + 1
      rw [List.filter_cons_of_pos (by simpa using hb)]
      simp only [List.length_cons]
      rw [ih hL2 hj]

theorem select_rank [LinearOrder K] {t : RBNode K V} (h : ordered t = true)
    {i : Nat} (hi : i < size t) :
    ∃ key, select t i = some key ∧ rank t key = i := by
  have hiL : i < (keys t).length := by rwa [← size_eq_length_keys]
  have hget : rank t ((keys t).get ⟨i, hiL⟩) = i := by
    rw [rank_eq_filter h]
    exact length_filter_lt_get (pairwise_keys h) hiL
  have hfind : ((keys t).find? (fun key => rank t key == i)).isSome := by
    rw [List.find?_isSome]
    refine ⟨(keys t).get ⟨i, hiL⟩, (keys t).get_mem i hiL, ?_⟩
    simpa using hget
  obtain ⟨key, hkey⟩ := Option.isSome_iff_exists.mp hfind
  refine ⟨key, hkey, ?_⟩
  have hp := List.find?_some hkey
  simpa using hp

/-! ## Deletion over the association-list model -/

theorem eraseP_no_match {p : K × V → Bool} {l : List (K × V)}
    (h : ∀ b ∈ l, ¬ p b = true) : l.eraseP p = l := by
  induction l with
  | nil => rfl
  | cons a l ih =>
    have hpa : p a = false := by
      have := h a (List.mem_cons_self _ _)
      simpa using this
    simp only [List.eraseP_cons, hpa, cond_false]
    rw [ih fun b hb => h b (List.mem_cons_of_mem _ hb)]

theorem eraseP_append_no_match_right {p : K × V → Bool} {l1 l2 : List (K × V)}
    (h : ∀ b ∈ l2, ¬ p b = true) :
    (l1 ++ l2).eraseP p = l1.eraseP p ++ l2 := by
  induction l1 with
  | nil =>
    simp only [List.nil_append, List.eraseP_nil]
    exact eraseP_no_match h
  | cons a l1 ih =>
    by_cases hpa : p a = true
    · simp only [List.cons_append, List.eraseP_cons, hpa, cond_true]
    · have hpa2 : p a = false := by simpa using hpa
      simp only [List.cons_append, List.eraseP_cons, hpa2, cond_false, ih]

theorem eraseP_append_no_match_left {p : K × V → Bool} {l1 l2 : List (K × V)}
    (h : ∀ b ∈ l1, ¬ p b = true) :
    (l1 ++ l2).eraseP p = l1 ++ l2.eraseP p := by
  induction l1 with
  | nil => rfl
  | cons a l1 ih =>
    have hpa : p a = false := by
      have := h a (List.mem_cons_self _ _)
      simpa using this
    simp only [List.cons_append, List.eraseP_cons, hpa, cond_false]
    rw [ih fun b hb => h b (List.mem_cons_of_mem _ hb)]

theorem assocGet_eraseP_other [DecidableEq K] {ps : List (K × V)} {key q : K}
    (h : q ≠ key) :
    assocGet (ps.eraseP (fun p => decide (p.1 = key))) q = assocGet ps q := by
  induction ps with
  | nil => rfl
  | cons a ps ih =>
    obtain ⟨ak, av⟩ := a
    by_cases hpa : ak = key
    · have he : ((ak, av) :: ps).eraseP (fun p => decide (p.1 = key)) = ps := by
        simp [List.eraseP_cons, hpa]
      rw [he, assocGet_cons, if_neg fun he2 => h (he2.symm.trans hpa)]
    · have he : ((ak, av) :: ps).eraseP (fun p => decide (p.1 = key)) =
          (ak, av) :: ps.eraseP (fun p => decide (p.1 = key)) := by
        simp [List.eraseP_cons, hpa]
      rw [he, assocGet_cons, assocGet_cons, ih]

theorem assocGet_eraseP_self [LinearOrder K] {ps : List (K × V)} {key : K}
    (hp : ps.Pairwise (fun a b => a.1 < b.1)) :
    assocGet (ps.eraseP (fun p => decide (p.1 = key))) key = none := by
  induction ps with
  | nil => rfl
  | cons a ps ih =>
    obtain ⟨ak, av⟩ := a
    obtain ⟨ha, hp2⟩ := List.pairwise_cons.mp hp
    by_cases hpa : ak = key
    · have he : ((ak, av) :: ps).eraseP (fun p => decide (p.1 = key)) = ps := by
        simp [List.eraseP_cons, hpa]
      rw [he]
      refine assocGet_eq_none ?_
      intro p hpm he2
      have hlt : ak < p.1 := ha p hpm
      rw [he2, hpa] at hlt
      exact lt_irrefl key hlt
    · have he : ((ak, av) :: ps).eraseP (fun p => decide (p.1 = key)) =
          (ak, av) :: ps.eraseP (fun p => decide (p.1 = key)) := by
        simp [List.eraseP_cons, hpa]
      rw [he, assocGet_cons, if_neg hpa]
      exact ih hp2

theorem length_eraseP_of_assocGet [DecidableEq K] {ps : List (K × V)} {key : K} {v : V}
    (h : assocGet ps key = some v) :
    (ps.eraseP (fun p => decide (p.1 = key))).length + 1 = ps.length := by
  induction ps with
  | nil => exact absurd h (by simp [assocGet])
  | cons a ps ih =>
    obtain ⟨ak, av⟩ := a
    by_cases hpa : ak = key
    · have he : ((ak, av) :: ps).eraseP (fun p => decide (p.1 = key)) = ps := by
        simp [List.eraseP_cons, hpa]
      rw [he, List.length_cons]
    · rw [assocGet_cons, if_neg hpa] at h
      have he : ((ak, av) :: ps).eraseP (fun p => decide (p.1 = key)) =
          (ak, av) :: ps.eraseP (fun p => decide (p.1 = key)) := by
        simp [List.eraseP_cons, hpa]
      rw [he, List.length_cons, List.length_cons, ih h]

theorem pairs_deleteAux [LinearOrder K] {t : RBNode K V} {key : K}
    (h : ordered t = true) :
    pairs (deleteAux t key) = (pairs t).eraseP (fun p => decide (p.1 = key)) := by
  induction t with
  | nil => rfl
  | node k v l r c ihl ihr =>
    simp only [ordered, Bool.and_eq_true] at h
    obtain ⟨⟨⟨hls, hrs⟩, hlo⟩, hro⟩ := h
    have hlkeys : ∀ p ∈ pairs l, p.1 < k := fun p hp => by
      simpa using all_mem_pairs hls p hp
    have hrkeys : ∀ p ∈ pairs r, k < p.1 := fun p hp => by
      simpa using all_mem_pairs hrs p hp
    show pairs (deleteAux (node k v l r c) key) =
      (pairs l ++ (k, v) :: pairs r).eraseP (fun p => decide (p.1 = key))
    simp only [deleteAux]
    split
    · next hq =>
      rw [eraseP_append_no_match_right ?hnm]
      case hnm =>
        intro b hb
        rcases List.mem_cons.mp hb with rfl | hb2
        · simp only [decide_eq_true_eq]
          intro he
          rw [he] at hq
          exact lt_irrefl key hq
        · simp only [decide_eq_true_eq]
          intro he
          have hlt : key < b.1 := lt_trans hq (hrkeys b hb2)
          rw [he] at hlt
          exact lt_irrefl key hlt
      show pairs (deleteAux l key) ++ (k, v) :: pairs r = _
      rw [ihl hlo]
    · split
      · next hq1 hq2 =>
        rw [eraseP_append_no_match_left ?hnl]
        case hnl =>
          intro b hb
          simp only [decide_eq_true_eq]
          intro he
          have hlt : b.1 < key := lt_trans (hlkeys b hb) hq2
          rw [he] at hlt
          exact lt_irrefl key hlt
        have hk2 : (fun p => decide (p.1 = key)) ((k : K), (v : V)) = false := by
          simp only [decide_eq_false_iff_not]
          intro he
          rw [he] at hq2
          exact lt_irrefl key hq2
        rw [show ((k, v) :: pairs r).eraseP (fun p => decide (p.1 = key)) =
            (k, v) :: (pairs r).eraseP (fun p => decide (p.1 = key)) by
          simp [List.eraseP_cons, hk2]]
        show pairs l ++ (k, v) :: pairs (deleteAux r key) = _
        rw [ihr hro]
      · next hq1 hq2 =>
        have hkq : k = key := le_antisymm (not_lt.mp hq1) (not_lt.mp hq2)
        subst hkq
        rw [eraseP_append_no_match_left ?hnl2]
        case hnl2 =>
          intro b hb
          simp only [decide_eq_true_eq]
          intro he
          have hlt : b.1 < k := hlkeys b hb
          rw [he] at hlt
          exact lt_irrefl k hlt
        rw [show ((k, v) :: pairs r).eraseP (fun p => decide (p.1 = k)) = pairs r by
          simp [List.eraseP_cons]]
        cases r with
        | nil => simp [pairs]
        | node rk rv rl rr rc =>
          cases l with
          | nil => simp [pairs]
          | node lk lv ll lr lc =>
            obtain ⟨m, mv, mc, hd, hp, hm⟩ :=
              deleteMinAux_spec (t := node rk rv rl rr rc) (by simp)
            simp only [hd]
            show pairs (node lk lv ll lr lc) ++
              (m, mv) :: pairs (deleteMinAux (node rk rv rl rr rc)).1 = _
            rw [← hp]

/-! ## The left-leaning red-black invariant under insertion -/

@[simp] theorem left_node {k : K} {v : V} {l r : RBNode K V} {c : Color} :
    (node k v l r c).left = l := rfl

@[simp] theorem right_node {k : K} {v : V} {l r : RBNode K V} {c : Color} :
    (node k v l r c).right = r := rfl

@[simp] theorem isRed_node_red {k : K} {v : V} {l r : RBNode K V} :
    isRed (node k v l r Color.Red) = true := rfl

@[simp] theorem isRed_node_black {k : K} {v : V} {l r : RBNode K V} :
    isRed (node k v l r Color.Black) = false := rfl

@[simp] theorem isRed_nil : isRed (nil : RBNode K V) = false := rfl

theorem isRed_of_LL_black {t : RBNode K V} {n : Nat} (h : LL t Color.Black n) :
    isRed t = false := by
  cases h <;> rfl

theorem isRed_of_LL_red {t : RBNode K V} {n : Nat} (h : LL t Color.Red n) :
    isRed t = true := by
  cases h
  rfl

theorem LL_no_redred {t : RBNode K V} {c : Color} {n : Nat} (h : LL t c n) :
    (isRed t && isRed t.left) = false := by
  cases h with
  | nil => rfl
  | red h1 h2 => simp [isRed_of_LL_black h1]
  | black h1 h2 => simp

theorem LL_setBlack_of_red {t : RBNode K V} {n : Nat} (h : LL t Color.Red n) :
    LL (setBlack t) Color.Black (n + 1) := by
  cases h with
  | red h1 h2 => exact LL.black h1 h2

theorem LL_setBlack_exists {u : RBNode K V} {c : Color} {n : Nat} (h : LL u c n) :
    ∃ m, LL (setBlack u) Color.Black m := by
  cases h with
  | nil => exact ⟨0, LL.nil⟩
  | red h1 h2 => exact ⟨_ + 1, LL.black h1 h2⟩
  | black h1 h2 => exact ⟨_ + 1, LL.black h1 h2⟩

theorem balanceFix_noop {x : RBNode K V}
    (h1 : (isRed x.right && !isRed x.left) = false)
    (h2 : (isRed x.left && isRed x.left.left) = false)
    (h3 : (isRed x.left && isRed x.right) = false) :
    balanceFix x = x ∧ balanceChk x = some x := by
  unfold balanceFix balanceChk fix1 fix2 fix3
  simp [h1, h2, h3]

theorem balanceFix_rotl (k : K) (v : V) (uk : K) (uv : V) (l ul ur : RBNode K V) (c : Color)
    (hl : isRed l = false) (hur : isRed ur = false) :
    balanceFix (node k v l (node uk uv ul ur Color.Red) c) =
      node uk uv (node k v l ul Color.Red) ur c ∧
    balanceChk (node k v l (node uk uv ul ur Color.Red) c) =
      some (node uk uv (node k v l ul Color.Red) ur c) := by
  unfold balanceFix balanceChk fix1 fix2 fix3
  simp [hl, hur, rotateLeft]

theorem balanceFix_rotr_flip (k : K) (v : V) (uk : K) (uv : V) (ul ur r : RBNode K V)
    (hul : isRed ul = true) (hr : isRed r = false) :
    balanceFix (node k v (node uk uv ul ur Color.Red) r Color.Black) =
      node uk uv (setBlack ul) (node k v ur r Color.Black) Color.Red ∧
    balanceChk (node k v (node uk uv ul ur Color.Red) r Color.Black) =
      some (node uk uv (setBlack ul) (node k v ur r Color.Black) Color.Red) := by
  unfold balanceFix balanceChk fix1 fix2 fix3
  simp [hul, hr, rotateRight, flipColor]
  rfl

theorem balanceFix_flip {k : K} {v : V} {l r : RBNode K V}
    (hl : isRed l = true) (hr : isRed r = true)
    (hll : (isRed l && isRed l.left) = false) :
    balanceFix (node k v l r Color.Black) =
      node k v (setBlack l) (setBlack r) Color.Red ∧
    balanceChk (node k v l r Color.Black) =
      some (node k v (setBlack l) (setBlack r) Color.Red) := by
  have hll2 : isRed l.left = false := by
    rw [hl] at hll
    simpa using hll
  unfold balanceFix balanceChk fix1 fix2 fix3
  simp [hl, hr, hll2, flipColor]

theorem putAux_LL [LinearOrder K] {t : RBNode K V} {c : Color} {n : Nat}
    (key : K) (val : V) (h : LL t c n) :
    putChk t key val = some (putAux t key val) ∧
    (c = Color.Black → ∃ c2, LL (putAux t key val) c2 n) ∧
    (c = Color.Red → AlmostLL (putAux t key val) n) := by
  induction h with
  | nil =>
    exact ⟨rfl, fun _ => ⟨Color.Red, LL.red LL.nil LL.nil⟩, fun hc => Color.noConfusion hc⟩
  | @red k v l r n h1 h2 ih1 ih2 =>
    have hmain : putChk (node k v l r Color.Red) key val =
        some (putAux (node k v l r Color.Red) key val) ∧
        AlmostLL (putAux (node k v l r Color.Red) key val) n := by
      by_cases hc1 : key < k
      · simp only [putAux, putChk, if_pos hc1, ih1.1, Option.some_bind]
        obtain ⟨c2, hu⟩ := ih1.2.1 rfl
        revert hu
        generalize putAux l key val = u
        intro hu
        have hno := balanceFix_noop (x := node k v u r Color.Red)
          (by simp [isRed_of_LL_black h2])
          (by simpa using LL_no_redred hu)
          (by simp [isRed_of_LL_black h2])
        rw [hno.1, hno.2]
        refine ⟨rfl, ?_⟩
        cases c2 with
        | Red => exact AlmostLL.rr hu h2
        | Black => exact AlmostLL.ok (LL.red hu h2)
      · by_cases hc2 : k < key
        · simp only [putAux, putChk, if_neg hc1, if_pos hc2, ih2.1, Option.some_bind]
          obtain ⟨c2, hu⟩ := ih2.2.1 rfl
          revert hu
          generalize putAux r key val = u
          intro hu
          cases hu with
          | nil =>
            have hno := balanceFix_noop (x := node k v l nil Color.Red)
              (by simp) (by simpa using LL_no_redred h1) (by simp)
            rw [hno.1, hno.2]
            exact ⟨rfl, AlmostLL.ok (LL.red h1 LL.nil)⟩
          | @red uk uv ul ur n2 hu1 hu2 =>
            have hab := balanceFix_rotl k v uk uv l ul ur Color.Red
              (isRed_of_LL_black h1) (isRed_of_LL_black hu2)
            rw [hab.1, hab.2]
            exact ⟨rfl, AlmostLL.rr (LL.red h1 hu1) hu2⟩
          | @black uk uv ul ur cl2 n2 hu1 hu2 =>
            have hno := balanceFix_noop
              (x := node k v l (node uk uv ul ur Color.Black) Color.Red)
              (by simp) (by simpa using LL_no_redred h1) (by simp [isRed_of_LL_black h1])
            rw [hno.1, hno.2]
            exact ⟨rfl, AlmostLL.ok (LL.red h1 (LL.black hu1 hu2))⟩
        · simp only [putAux, putChk, if_neg hc1, if_neg hc2]
          have hno := balanceFix_noop (x := node k val l r Color.Red)
            (by simp [isRed_of_LL_black h2])
            (by simpa using LL_no_redred h1)
            (by simp [isRed_of_LL_black h2])
          rw [hno.1, hno.2]
          exact ⟨rfl, AlmostLL.ok (LL.red h1 h2)⟩
    exact ⟨hmain.1, fun hc => Color.noConfusion hc, fun _ => hmain.2⟩
  | @black k v l r cl n h1 h2 ih1 ih2 =>
    have hmain : putChk (node k v l r Color.Black) key val =
        some (putAux (node k v l r Color.Black) key val) ∧
        ∃ c2, LL (putAux (node k v l r Color.Black) key val) c2 (n + 1) := by
      by_cases hc1 : key < k
      · simp only [putAux, putChk, if_pos hc1, ih1.1, Option.some_bind]
        cases cl with
        | Black =>
          obtain ⟨c2, hu⟩ := ih1.2.1 rfl
          revert hu
          generalize putAux l key val = u
          intro hu
          have hno := balanceFix_noop (x := node k v u r Color.Black)
            (by simp [isRed_of_LL_black h2])
            (by simpa using LL_no_redred hu)
            (by simp [isRed_of_LL_black h2])
          rw [hno.1, hno.2]
          exact ⟨rfl, Color.Black, LL.black hu h2⟩
        | Red =>
          have halm := ih1.2.2 rfl
          revert halm
          generalize putAux l key val = u
          intro halm
          cases halm with
          | ok hu =>
            have hno := balanceFix_noop (x := node k v u r Color.Black)
              (by simp [isRed_of_LL_black h2])
              (by simpa using LL_no_redred hu)
              (by simp [isRed_of_LL_black h2])
            rw [hno.1, hno.2]
            exact ⟨rfl, Color.Black, LL.black hu h2⟩
          | @rr uk uv ul ur n2 hu1 hu2 =>
            have hab := balanceFix_rotr_flip k v uk uv ul ur r
              (isRed_of_LL_red hu1) (isRed_of_LL_black h2)
            rw [hab.1, hab.2]
            exact ⟨rfl, Color.Red,
              LL.red (LL_setBlack_of_red hu1) (LL.black hu2 h2)⟩
      · by_cases hc2 : k < key
        · simp only [putAux, putChk, if_neg hc1, if_pos hc2, ih2.1, Option.some_bind]
          obtain ⟨c2, hu⟩ := ih2.2.1 rfl
          revert hu
          generalize putAux r key val = u
          intro hu
          cases hu with
          | nil =>
            have hno := balanceFix_noop (x := node k v l nil Color.Black)
              (by simp) (by simpa using LL_no_redred h1) (by simp)
            rw [hno.1, hno.2]
            exact ⟨rfl, Color.Black, LL.black h1 LL.nil⟩
          | @red uk uv ul ur n2 hu1 hu2 =>
            cases cl with
            | Black =>
              have hab := balanceFix_rotl k v uk uv l ul ur Color.Black
                (isRed_of_LL_black h1) (isRed_of_LL_black hu2)
              rw [hab.1, hab.2]
              exact ⟨rfl, Color.Black, LL.black (LL.red h1 hu1) hu2⟩
            | Red =>
              have hab := balanceFix_flip (k := k) (v := v)
                (l := l) (r := node uk uv ul ur Color.Red)
                (isRed_of_LL_red h1) rfl (LL_no_redred h1)
              rw [hab.1, hab.2]
              exact ⟨rfl, Color.Red,
                LL.red (LL_setBlack_of_red h1) (LL_setBlack_of_red (LL.red hu1 hu2))⟩
          | @black uk uv ul ur cl2 n2 hu1 hu2 =>
            have hno := balanceFix_noop
              (x := node k v l (node uk uv ul ur Color.Black) Color.Black)
              (by simp) (by simpa using LL_no_redred h1) (by simp)
            rw [hno.1, hno.2]
            exact ⟨rfl, Color.Black, LL.black h1 (LL.black hu1 hu2)⟩
        · simp only [putAux, putChk, if_neg hc1, if_neg hc2]
          have hno := balanceFix_noop (x := node k val l r Color.Black)
            (by simp [isRed_of_LL_black h2])
            (by simpa using LL_no_redred h1)
            (by simp [isRed_of_LL_black h2])
          rw [hno.1, hno.2]
          exact ⟨rfl, Color.Black, LL.black h1 h2⟩
    exact ⟨hmain.1, fun _ => hmain.2, fun hc => Color.noConfusion hc⟩

theorem putOnly_LL [LinearOrder K] {t : RBNode K V} (h : PutOnly t) :
    ∃ n, LL t Color.Black n := by
  induction h with
  | empty => exact ⟨0, LL.nil⟩
  | putStep t k v _ ih =>
    obtain ⟨n, hn⟩ := ih
    obtain ⟨c2, hu⟩ := (putAux_LL k v hn).2.1 rfl
    exact LL_setBlack_exists hu

theorem LL_noRedRed {t : RBNode K V} {c : Color} {n : Nat} (h : LL t c n) :
    noRedRed t = true := by
  induction h with
  | nil => rfl
  | red h1 h2 ih1 ih2 =>
    simp [noRedRed, ih1, ih2, isRed_of_LL_black h1, isRed_of_LL_black h2]
  | black h1 h2 ih1 ih2 => simp [noRedRed, ih1, ih2]

theorem LL_blackHeight {t : RBNode K V} {c : Color} {n : Nat} (h : LL t c n) :
    blackHeight t = n := by
  induction h with
  | nil => rfl
  | red h1 h2 ih1 ih2 => simp [blackHeight, ih1]
  | black h1 h2 ih1 ih2 => simp [blackHeight, ih1]

theorem LL_pathBlacks {t : RBNode K V} {c : Color} {n : Nat} (h : LL t c n) :
    ∀ m ∈ pathBlacks t, m = n := by
  induction h with
  | nil =>
    intro m hm
    simpa [pathBlacks] using hm
  | red h1 h2 ih1 ih2 =>
    intro m hm
    simp only [pathBlacks, List.mem_map, List.mem_append] at hm
    obtain ⟨a, ha, rfl⟩ := hm
    rcases ha with ha | ha
    · simp [ih1 a ha]
    · simp [ih2 a ha]
  | black h1 h2 ih1 ih2 =>
    intro m hm
    simp only [pathBlacks, List.mem_map, List.mem_append] at hm
    obtain ⟨a, ha, rfl⟩ := hm
    rcases ha with ha | ha
    · simp [ih1 a ha]
    · simp [ih2 a ha]

theorem LL_depth {t : RBNode K V} {c : Color} {n : Nat} (h : LL t c n) :
    depth t ≤ 2 * n + (if c = Color.Red then 1 else 0) := by
  induction h with
  | nil => simp [depth]
  | @red k v l r n2 h1 h2 ih1 ih2 =>
    have ih1b : RBNode.depth l ≤ 2 * n2 := by simpa using ih1
    have ih2b : RBNode.depth r ≤ 2 * n2 := by simpa using ih2
    show max (RBNode.depth l) (RBNode.depth r) + 1 ≤ 2 * n2 + 1
    have hm : max (RBNode.depth l) (RBNode.depth r) ≤ 2 * n2 := max_le ih1b ih2b
    omega
  | @black k v l r cl n2 h1 h2 ih1 ih2 =>
    have ih2b : RBNode.depth r ≤ 2 * n2 := by simpa using ih2
    have hb1 : RBNode.depth l ≤ 2 * n2 + 1 := le_trans ih1 (by split <;> omega)
    show max (RBNode.depth l) (RBNode.depth r) + 1 ≤ 2 * (n2 + 1) + 0
    have hm : max (RBNode.depth l) (RBNode.depth r) ≤ 2 * n2 + 1 :=
      max_le hb1 (le_trans ih2b (by omega))
    omega

theorem LL_size {t : RBNode K V} {c : Color} {n : Nat} (h : LL t c n) :
    2 ^ n ≤ size t + 1 := by
  induction h with
  | nil => simp
  | red h1 h2 ih1 ih2 =>
    refine le_trans ih1 ?_
    simp only [size]
    omega
  | black h1 h2 ih1 ih2 =>
    simp only [size, pow_succ]
    omega

/-! ## The claims -/

/-- C1: for every state of the tree reachable from the empty tree by any
finite sequence of `put`, `delete`, `delete_min` and `delete_max`, the
binary-search-tree order invariant holds: at every node, every key in its
left subtree is strictly less than the node's key and every key in its right
subtree is strictly greater. -/
theorem bst_order_invariant_reachable [LinearOrder K] {t : RBNode K V}
    (h : Reachable t) : ordered t = true :=
  reachable_ordered h

theorem bst_order_invariant_reachable_witness :
    ordered (deleteMin (delete (put (put (nil : RBNode Nat Nat) 2 20) 1 10) 2)) = true :=
  bst_order_invariant_reachable
    (Reachable.deleteMinStep _ (Reachable.deleteStep _ 2
      (Reachable.putStep _ 1 10 (Reachable.putStep _ 2 20 Reachable.empty))))

/-- C3: on every reachable state of the table, `put(k, v)` followed by
`get(k)` returns `v`; `put(k, v1)` then `put(k, v2)` makes `get(k)` return
`v2` with the same size as after the first put; inserting an already present
key leaves the size unchanged while a new key increments it by one. -/
theorem put_get_round_trip [LinearOrder K] {t : RBNode K V} (h : Reachable t)
    (k : K) (v v1 v2 : V) :
    get (put t k v) k = some v ∧
    get (put (put t k v1) k v2) k = some v2 ∧
    size (put (put t k v1) k v2) = size (put t k v1) ∧
    (∀ q w, get t q = some w → ∀ u : V, size (put t q u) = size t) ∧
    (∀ q, get t q = none → ∀ u : V, size (put t q u) = size t + 1) := by
  have ho := reachable_ordered h
  have ho1 : ordered (put t k v1) = true := ordered_put ho
  refine ⟨get_put_self ho k v, get_put_self ho1 k v2, ?_, ?_, ?_⟩
  · rw [size_put, get_put_self ho k v1]
    simp
  · intro q w hw u
    rw [size_put, hw]
    simp
  · intro q hq u
    rw [size_put, hq]
    simp

theorem put_get_round_trip_witness :
    get (put (put (nil : RBNode Nat Nat) 1 10) 2 5) 2 = some 5 :=
  (put_get_round_trip (Reachable.putStep _ 1 10 Reachable.empty) 2 5 7 9).1

/-- C6: on every reachable state, `floor` and `ceiling` applied to a stored
key return that key; `floor` of a key strictly below the minimum returns
absent; `ceiling` of a key strictly above the maximum returns absent. -/
theorem floor_ceiling_boundary [LinearOrder K] {t : RBNode K V} (hr : Reachable t)
    (key : K) :
    (∀ v, get t key = some v → floor t key = some key ∧ ceiling t key = some key) ∧
    (∀ m, findMin t = some m → key < m → floor t key = none) ∧
    (∀ m, findMax t = some m → m < key → ceiling t key = none) := by
  have ho := reachable_ordered hr
  refine ⟨fun v hv => ⟨floor_present hv, ceiling_present hv⟩, ?_, ?_⟩
  · intro m hm hk
    exact floor_below (all_gt_of_lt_findMin ho hm hk)
  · intro m hm hk
    exact ceiling_above (all_lt_of_findMax_lt ho hm hk)

theorem floor_ceiling_boundary_witness :
    floor (put (put (nil : RBNode Nat Nat) 3 30) 5 50) 3 = some 3 ∧
    floor (put (put (nil : RBNode Nat Nat) 3 30) 5 50) 1 = none ∧
    ceiling (put (put (nil : RBNode Nat Nat) 3 30) 5 50) 7 = none := by
  have hr : Reachable (put (put (nil : RBNode Nat Nat) 3 30) 5 50) :=
    Reachable.putStep _ 5 50 (Reachable.putStep _ 3 30 Reachable.empty)
  refine ⟨((floor_ceiling_boundary hr 3).1 30 (by decide)).1,
    (floor_ceiling_boundary hr 1).2.1 3 (by decide) (by decide),
    (floor_ceiling_boundary hr 7).2.2 5 (by decide) (by decide)⟩

/-- C7: on every reachable state, deleting a key that is not stored leaves
the tree entirely unchanged (same structure, keys, values, colors). -/
theorem delete_absent_noop [LinearOrder K] {t : RBNode K V} (hr : Reachable t)
    {key : K} (h : get t key = none) : delete t key = t :=
  delete_absent_aux h

theorem delete_absent_noop_witness :
    delete (put (put (nil : RBNode Nat Nat) 3 30) 5 50) 4 =
      put (put (nil : RBNode Nat Nat) 3 30) 5 50 :=
  delete_absent_noop
    (Reachable.putStep _ 5 50 (Reachable.putStep _ 3 30 Reachable.empty))
    (by decide)

/-- C4: on every reachable state and every index `i` with `0 ≤ i < size`,
`select(i)` returns some key and `rank` of that key equals `i`. -/
theorem rank_select_duality [LinearOrder K] {t : RBNode K V} (hr : Reachable t)
    {i : Nat} (hi : i < size t) :
    ∃ key, select t i = some key ∧ rank t key = i :=
  select_rank (reachable_ordered hr) hi

theorem rank_select_duality_witness :
    ∃ key, select (put (put (put (nil : RBNode Nat Nat) 3 30) 1 10) 2 20) 1 = some key ∧
      rank (put (put (put (nil : RBNode Nat Nat) 3 30) 1 10) 2 20) key = 1 :=
  rank_select_duality
    (Reachable.putStep _ 2 20 (Reachable.putStep _ 1 10
      (Reachable.putStep _ 3 30 Reachable.empty)))
    (by decide)

/-- C8: on every reachable state, deleting a stored key makes `get` of it
absent, shrinks the size by exactly one and leaves every other stored key
bound to the same value; `delete_min` (resp. `delete_max`) removes exactly
the minimum (resp. maximum) key, leaving the rest intact; on the empty tree
both are no-ops. -/
theorem delete_removes_exactly [LinearOrder K] {t : RBNode K V} (hr : Reachable t) :
    (∀ k v, get t k = some v →
      get (delete t k) k = none ∧ size (delete t k) + 1 = size t ∧
      ∀ q, q ≠ k → get (delete t k) q = get t q) ∧
    (∀ m, findMin t = some m →
      get (deleteMin t) m = none ∧ size (deleteMin t) + 1 = size t ∧
      ∀ q, q ≠ m → get (deleteMin t) q = get t q) ∧
    (∀ m, findMax t = some m →
      get (deleteMax t) m = none ∧ size (deleteMax t) + 1 = size t ∧
      ∀ q, q ≠ m → get (deleteMax t) q = get t q) ∧
    deleteMin (nil : RBNode K V) = nil ∧ deleteMax (nil : RBNode K V) = nil := by
  have ho := reachable_ordered hr
  have hpair : (pairs t).Pairwise (fun a b => a.1 < b.1) := by
    have hpk := pairwise_keys ho
    rw [keys_eq_map_pairs] at hpk
    exact List.pairwise_map.mp hpk
  refine ⟨?_, ?_, ?_, rfl, rfl⟩
  · intro k v hv
    have ho2 : ordered (delete t k) = true := ordered_deleteAux ho
    have hass : assocGet (pairs t) k = some v := by
      rw [← get_eq_assocGet ho]
      exact hv
    have hpd : pairs (delete t k) = (pairs t).eraseP (fun p => decide (p.1 = k)) :=
      pairs_deleteAux ho
    refine ⟨?_, ?_, ?_⟩
    · rw [get_eq_assocGet ho2, hpd]
      exact assocGet_eraseP_self hpair
    · rw [size_eq_length_pairs, size_eq_length_pairs, hpd]
      exact length_eraseP_of_assocGet hass
    · intro q hq
      rw [get_eq_assocGet ho2, hpd, assocGet_eraseP_other hq, ← get_eq_assocGet ho]
  · intro m hm
    have hne : t ≠ nil := by
      intro he
      rw [he] at hm
      exact Option.noConfusion hm
    obtain ⟨m2, mv, mc, hd, hp, hm2⟩ := deleteMinAux_spec hne
    rw [hm2] at hm
    rw [Option.some.inj hm] at hp
    have ho2 : ordered (deleteMin t) = true := ordered_deleteMinAux ho
    have hpair2 := hpair
    rw [hp] at hpair2
    refine ⟨?_, ?_, ?_⟩
    · rw [get_eq_assocGet ho2]
      refine assocGet_eq_none ?_
      intro p hpm he
      have hlt : m < p.1 := (List.pairwise_cons.mp hpair2).1 p hpm
      rw [he] at hlt
      exact lt_irrefl _ hlt
    · rw [size_eq_length_pairs, size_eq_length_pairs, hp]
      rfl
    · intro q hq
      rw [get_eq_assocGet ho2, get_eq_assocGet ho, hp, assocGet_cons,
        if_neg fun he => hq he.symm]
      rfl
  · intro m hm
    have hne : t ≠ nil := by
      intro he
      rw [he] at hm
      exact Option.noConfusion hm
    obtain ⟨m2, mv, mc, hd, hp, hm2⟩ := deleteMaxAux_spec hne
    rw [hm2] at hm
    rw [Option.some.inj hm] at hp
    have ho2 : ordered (deleteMax t) = true := ordered_deleteMaxAux ho
    have hpair2 := hpair
    rw [hp] at hpair2
    have hsplit := List.pairwise_append.mp hpair2
    refine ⟨?_, ?_, ?_⟩
    · rw [get_eq_assocGet ho2]
      refine assocGet_eq_none ?_
      intro p hpm he
      have hlt : p.1 < m := hsplit.2.2 p hpm (m, mv) (List.mem_singleton_self _)
      rw [he] at hlt
      exact lt_irrefl _ hlt
    · rw [size_eq_length_pairs, size_eq_length_pairs, hp]
      simp [deleteMax]
    · intro q hq
      rw [get_eq_assocGet ho2, get_eq_assocGet ho, hp, assocGet_append,
        show assocGet [(m, mv)] q = none from by
          rw [show ([(m, mv)] : List (K × V)) = (m, mv) :: [] from rfl, assocGet_cons,
            if_neg fun he => hq he.symm]
          rfl,
        Option.orElse_none']
      rfl

theorem delete_removes_exactly_witness :
    get (delete (put (put (nil : RBNode Nat Nat) 1 10) 2 20) 1) 1 = none :=
  ((delete_removes_exactly
    (Reachable.putStep _ 2 20 (Reachable.putStep _ 1 10 Reachable.empty))).1
    1 10 (by decide)).1

/-- C2: after any sequence of `put` calls alone, no root-to-leaf path holds
two consecutive Red links, every root-to-leaf path carries the same number of
Black links, and the tree height is at most `2 * log2(n + 1)` where `n` is
the number of nodes (stated with `Nat.log 2`, the floor of the real `log2`,
which makes the bound stronger). -/
theorem insertion_only_invariants [LinearOrder K] {t : RBNode K V} (h : PutOnly t) :
    noRedRed t = true ∧ (∀ m ∈ pathBlacks t, m = blackHeight t) ∧
    depth t ≤ 2 * Nat.log 2 (size t + 1) := by
  obtain ⟨n, hn⟩ := putOnly_LL h
  refine ⟨LL_noRedRed hn, ?_, ?_⟩
  · intro m hm
    rw [LL_blackHeight hn]
    exact LL_pathBlacks hn m hm
  · have hd : depth t ≤ 2 * n := by simpa using LL_depth hn
    have hs : 2 ^ n ≤ size t + 1 := LL_size hn
    have hlog : n ≤ Nat.log 2 (size t + 1) :=
      (Nat.pow_le_iff_le_log (by norm_num) (by omega)).mp hs
    omega

theorem insertion_only_invariants_witness :
    noRedRed (put (put (nil : RBNode Nat Nat) 1 10) 2 20) = true ∧
    (∀ m ∈ pathBlacks (put (put (nil : RBNode Nat Nat) 1 10) 2 20),
      m = blackHeight (put (put (nil : RBNode Nat Nat) 1 10) 2 20)) ∧
    depth (put (put (nil : RBNode Nat Nat) 1 10) 2 20) ≤
      2 * Nat.log 2 (size (put (put (nil : RBNode Nat Nat) 1 10) 2 20) + 1) :=
  insertion_only_invariants
    (PutOnly.putStep _ 2 20 (PutOnly.putStep _ 1 10 PutOnly.empty))

/-- C5 counterexample: `panicTree` is reachable through the four public
mutating operations, yet `put` of key `1` on it reaches `flip_color` on a Red
node, so the asserted precondition `!self.is_red()` fails and the Rust code
panics (`putChk` returns `none`). -/
theorem put_assertion_failure_reachable :
    Reachable panicTree ∧ putChk panicTree 1 5 = none :=
  ⟨Reachable.deleteStep _ 1 (Reachable.putStep _ 0 0 (Reachable.deleteStep _ 0
    (Reachable.putStep _ 3 0 (Reachable.putStep _ 2 0 (Reachable.putStep _ 1 0
      (Reachable.putStep _ 0 0 Reachable.empty)))))), by decide⟩

/-- C5 (amended): on every tree built through `put` alone (no deletions), the
asserted preconditions of `rotate_left`, `rotate_right` and `flip_color` hold
at every call site reached during `put`: the assertion-checked `put` never
panics and returns exactly the unchecked result.  (As stated over all four
public operations the claim is false: see `put_assertion_failure_reachable`,
where a delete-damaged tree makes `flip_color`'s `!self.is_red()` assertion
fail.) -/
theorem put_assertions_hold_insertion_only [LinearOrder K] {t : RBNode K V}
    (h : PutOnly t) (key : K) (val : V) :
    putChk t key val = some (putAux t key val) := by
  obtain ⟨n, hn⟩ := putOnly_LL h
  exact (putAux_LL key val hn).1

theorem put_assertions_hold_insertion_only_witness :
    putChk (put (put (nil : RBNode Nat Nat) 1 10) 2 20) 3 30 =
      some (putAux (put (put (nil : RBNode Nat Nat) 1 10) 2 20) 3 30) :=
  put_assertions_hold_insertion_only
    (PutOnly.putStep _ 2 20 (PutOnly.putStep _ 1 10 PutOnly.empty)) 3 30

set_option maxRecDepth 40000 in
/-- C9: the shape test of the repository: inserting the keys of the Rust
range `0..255` (the 255 integers 0 through 254) into the empty tree by `put`
alone yields a tree of size 255 whose height is at most 8. -/
theorem shape_scenario : size shapeTree = 255 ∧ depth shapeTree ≤ 8 := by
  decide

set_option maxRecDepth 40000 in
/-- C10: the `SEARCHEXAMP` scenario of the repository test: the 11 puts with
keys `S,E,A,R,C,H,E,X,A,M,P` (values the 0-based insertion positions) give
size 9, `get('E') = 6`, `rank('E') = 2`, `select(2) = 'E'`, minimum `'A'`,
maximum `'X'`, and the in-order key sequence `A,C,E,H,M,P,R,S,X`. -/
theorem search_example_scenario :
    size scenarioTree = 9 ∧
    get scenarioTree 'E' = some 6 ∧
    rank scenarioTree 'E' = 2 ∧
    select scenarioTree 2 = some 'E' ∧
    findMin scenarioTree = some 'A' ∧
    findMax scenarioTree = some 'X' ∧
    keys scenarioTree = ['A', 'C', 'E', 'H', 'M', 'P', 'R', 'S', 'X'] := by
  refine ⟨?_, ?_, ?_, ?_, ?_, ?_, ?_⟩ <;> decide

end Rbtree
